import Mathlib

/-!
Verification of the pagination core of `pagination-plugin`.

The development shallowly embeds the three pieces of the pagination core:

* `calculatePageBreaks` from `src/hooks/use-editor-height.ts` (the pure
  page-break planner),
* the metrics-collection loop of `useEditorHeight` (same file),
* the reconciliation step of `usePageBreakManager` from
  `src/hooks/use-page-break-manager.ts` (the debounced pass and the manual
  `recalculate` entry point), and
* the `removeAllPageBreaks` command of
  `src/components/tiptap-extension/page-break-extension.ts`.

Pixel quantities and document positions are JavaScript numbers holding
integral values in the source; they are modelled as `Int`.
-/

namespace Pagination

/-- A4 page height at 96 DPI (`PAGE_HEIGHT` in `use-editor-height.ts`). -/
def PAGE_HEIGHT : Int := 1123

/-- One entry of `EditorHeightMetrics.nodeHeights`
(`use-editor-height.ts`, lines 17-22): a measured block-level node. -/
structure NodeHeight where
  type : String
  height : Int
  top : Int
  pos : Int
  deriving DecidableEq

/-- One planned page break (`PageBreakPosition` in `use-editor-height.ts`,
lines 25-34). -/
structure PageBreakPosition where
  pageNumber : Int
  position : Int
  insertPos : Int
  afterNodeIndex : Int
  deriving DecidableEq

/-- The inner `while (nodeBottom > currentPageEnd)` loop of
`calculatePageBreaks` (`use-editor-height.ts`, lines 64-73), which emits the
extra breaks for a node taller than one page.  Each iteration pushes a break
at the current page end with `insertPos = node.pos + node.height` and
`afterNodeIndex = index`, then advances `currentPageEnd` by `pageHeight`.

The source loop terminates only when `pageHeight` is positive; the model
carries a fuel argument bounding the iteration count.  The caller supplies
fuel `(nodeBottom - currentPageEnd).toNat`, which is never exhausted when
`1 ≤ pageHeight` (lemma `tallNodeLoopFuel_spec`); for `pageHeight ≤ 0` the
source never returns. -/
def tallNodeLoopFuel (pageHeight nodeBottom insertPosTall : Int) (index : Nat) :
    Nat → Int → Int → List PageBreakPosition × Int × Int
  | 0, currentPageEnd, pageNumber => ([], currentPageEnd, pageNumber)
  | fuel + 1, currentPageEnd, pageNumber =>
    if nodeBottom > currentPageEnd then
      let next := tallNodeLoopFuel pageHeight nodeBottom insertPosTall index fuel
        (currentPageEnd + pageHeight) (pageNumber + 1)
      (⟨pageNumber, currentPageEnd, insertPosTall, (index : Int)⟩ :: next.1, next.2)
    else ([], currentPageEnd, pageNumber)

/-- The body of the `nodeHeights.forEach` callback of `calculatePageBreaks`
(`use-editor-height.ts`, lines 47-75) for a single node: if the node's bottom
extends past the current page boundary, push a break before the node
(`insertPos = node.pos`, `afterNodeIndex = index - 1`), advance the page, then
run the tall-node loop.  Returns the emitted breaks together with the updated
`currentPageEnd` and `pageNumber`. -/
def processNode (pageHeight : Int) (node : NodeHeight) (index : Nat)
    (currentPageEnd pageNumber : Int) : List PageBreakPosition × Int × Int :=
  let nodeBottom := node.top + node.height
  if nodeBottom > currentPageEnd then
    let firstBreak : PageBreakPosition :=
      ⟨pageNumber, currentPageEnd, node.pos, (index : Int) - 1⟩
    let next := tallNodeLoopFuel pageHeight nodeBottom (node.pos + node.height) index
      (nodeBottom - (currentPageEnd + pageHeight)).toNat
      (currentPageEnd + pageHeight) (pageNumber + 1)
    (firstBreak :: next.1, next.2)
  else ([], currentPageEnd, pageNumber)

/-- The `forEach` traversal of `calculatePageBreaks`, threading `index`,
`currentPageEnd` and `pageNumber` through the node list. -/
def calcLoop (pageHeight : Int) :
    List NodeHeight → Nat → Int → Int → List PageBreakPosition
  | [], _, _, _ => []
  | node :: rest, index, currentPageEnd, pageNumber =>
    let step := processNode pageHeight node index currentPageEnd pageNumber
    step.1 ++ calcLoop pageHeight rest (index + 1) step.2.1 step.2.2

/-- `calculatePageBreaks` (`use-editor-height.ts`, lines 39-78): walk the
measured nodes with `currentPageEnd = pageHeight` and `pageNumber = 1`,
emitting a break each time a node's bottom crosses the current page
boundary. -/
def calculatePageBreaks (nodeHeights : List NodeHeight)
    (pageHeight : Int := PAGE_HEIGHT) : List PageBreakPosition :=
  calcLoop pageHeight nodeHeights 0 pageHeight 1

/-- Sum of the measured heights; the spec calls this `contentHeight` (the sum
of all node heights, which under the contiguity invariant equals the bottom of
the last node). -/
def totalHeight (nodeHeights : List NodeHeight) : Int :=
  (nodeHeights.map (fun n => n.height)).sum

/-- The data-model contiguity invariant of the spec (section 3): starting from
a given offset `t`, each node's `top` equals the running offset, heights are
nonnegative, and the offset advances by the node's height
(`top[0] = 0`, `top[i] = top[i-1] + height[i-1]`, `height ≥ 0`). -/
def Chain : Int → List NodeHeight → Prop
  | _, [] => True
  | t, n :: rest => n.top = t ∧ 0 ≤ n.height ∧ Chain (t + n.height) rest

instance : ∀ t l, Decidable (Chain t l)
  | _, [] => .isTrue trivial
  | t, n :: rest =>
    have : Decidable (Chain (t + n.height) rest) := instDecidableChain _ _
    inferInstanceAs (Decidable (_ ∧ _ ∧ _))

/-- A document node as seen by the metrics pass of `useEditorHeight`
(`use-editor-height.ts`, lines 106-123): type name, whether it is a block
node, its document position, and the rendered element's pixel height when
`editor.view.nodeDOM(pos)` yields an `HTMLElement` (`none` when the node has
no rendered element yet). -/
structure MeasuredNode where
  typeName : String
  isBlock : Bool
  pos : Int
  rendered : Option Int
  deriving DecidableEq

/-- The node-measurement loop of `updateMetrics` (`use-editor-height.ts`,
lines 106-123): walk the document's nodes accumulating `cumulativeHeight`;
a block node other than `pageBreak` whose DOM element is available
contributes a record `{type, height, top, pos}` and advances the accumulator;
every other node contributes nothing. -/
def collectNodeHeights : List MeasuredNode → Int → List NodeHeight
  | [], _ => []
  | m :: rest, cumulativeHeight =>
    if m.isBlock && m.typeName != "pageBreak" then
      match m.rendered with
      | some h =>
        ⟨m.typeName, h, cumulativeHeight, m.pos⟩ ::
          collectNodeHeights rest (cumulativeHeight + h)
      | none => collectNodeHeights rest cumulativeHeight
    else collectNodeHeights rest cumulativeHeight

/-- A top-level document node for the `removeAllPageBreaks` command
(`page-break-extension.ts`, lines 94-113): its type name and its
`nodeSize`.  The document is modelled as the ordered list of its block
children; a node's position is the sum of the sizes of the nodes before
it (in ProseMirror every node has `nodeSize ≥ 1`). -/
structure DocNode where
  name : String
  size : Nat
  deriving DecidableEq

/-- The `doc.descendants` scan of `removeAllPageBreaks`
(`page-break-extension.ts`, lines 101-105): every `pageBreak` node paired
with its position and `nodeSize`, in document order.  `base` is the position
of the first node of the remaining list. -/
def collectPageBreaks : List DocNode → Nat → List (Nat × Nat)
  | [], _ => []
  | n :: rest, base =>
    if n.name = "pageBreak" then
      (base, n.size) :: collectPageBreaks rest (base + n.size)
    else collectPageBreaks rest (base + n.size)

/-- `tr.delete(start, stop)` restricted to whole top-level nodes: walking the
document from offset `base`, a node whose span `[base, base + size)` lies
inside `[start, stop)` is removed. -/
def deleteRange : List DocNode → Nat → Nat → Nat → List DocNode
  | [], _, _, _ => []
  | n :: rest, base, start, stop =>
    if start ≤ base ∧ base + n.size ≤ stop then
      deleteRange rest (base + n.size) start stop
    else n :: deleteRange rest (base + n.size) start stop

/-- `removeAllPageBreaks` (`page-break-extension.ts`, lines 94-113): collect
every page break with its position and size, then delete them from end to
start (`pageBreaks.reverse().forEach(({pos, size}) => tr.delete(pos,
pos + size))`). -/
def removeAllPageBreaks (doc : List DocNode) : List DocNode :=
  (collectPageBreaks doc 0).reverse.foldl
    (fun d ps => deleteRange d 0 ps.1 (ps.1 + ps.2)) doc

/-- One document mutation performed by the page-break manager: removal of the
marker at a position, or insertion of a `pageBreak` marker with a page-number
attribute at a position. -/
inductive MarkerOp where
  | remove (pos : Int)
  | insert (pos pageNumber : Int)
  deriving DecidableEq

/-- The state owned by `usePageBreakManager`: the `pageBreak` markers
currently in the document (position and `pageNumber` attribute, in document
order) and the value of `lastBreakCountRef.current`. -/
structure ManagerState where
  markers : List (Int × Int)
  lastApplied : Nat
  deriving DecidableEq

/-- The markers present in the document after `removeAllPageBreaks` followed
by one `insertContentAt(b.insertPos, {type: pageBreak, attrs: {pageNumber:
b.pageNumber}})` per plan entry. -/
def markersOfPlan (plan : List PageBreakPosition) : List (Int × Int) :=
  plan.map (fun b => (b.insertPos, b.pageNumber))

/-- One debounced reconciliation pass of `usePageBreakManager`
(`use-page-break-manager.ts`, lines 33-74), as a step on the manager state
given the freshly computed plan: if the plan's length differs from
`lastBreakCountRef.current`, remove every existing marker, insert every
planned one, and record the new count; otherwise do nothing.  The second
component is the sequence of document mutations performed. -/
def reconcileStep (plan : List PageBreakPosition) (st : ManagerState) :
    ManagerState × List MarkerOp :=
  if plan.length ≠ st.lastApplied then
    ({ markers := markersOfPlan plan, lastApplied := plan.length },
      st.markers.map (fun m => MarkerOp.remove m.1) ++
        plan.map (fun b => MarkerOp.insert b.insertPos b.pageNumber))
  else (st, [])

/-- The manual `recalculate` entry point (`use-page-break-manager.ts`, lines
85-101): always remove every marker and insert the fresh plan, without
touching `lastBreakCountRef`. -/
def recalcStep (plan : List PageBreakPosition) (st : ManagerState) :
    ManagerState × List MarkerOp :=
  ({ markers := markersOfPlan plan, lastApplied := st.lastApplied },
    st.markers.map (fun m => MarkerOp.remove m.1) ++
      plan.map (fun b => MarkerOp.insert b.insertPos b.pageNumber))

/-- The insertion loop of the debounced pass (`use-page-break-manager.ts`,
lines 56-70): each `insertContentAt` call is wrapped in `try { ... } catch`
which logs the error and continues with the next break.  `ins` is the host
editor's fallible insertion; the result is the final document together with
the log of caught errors, in order. -/
def insertLoopCaught {α : Type} (ins : α → PageBreakPosition → Except String α) :
    α → List PageBreakPosition → α × List String
  | d, [] => (d, [])
  | d, b :: rest =>
    match ins d b with
    | .ok d' => insertLoopCaught ins d' rest
    | .error e =>
      let next := insertLoopCaught ins d rest
      (next.1, e :: next.2)

/-- The insertion loop of the manual `recalculate` entry point
(`use-page-break-manager.ts`, lines 92-100): the same `forEach` of
`insertContentAt` calls but with no `try`/`catch`, so the first exception
propagates out of the `forEach` and the remaining insertions never run. -/
def insertLoopUncaught {α : Type} (ins : α → PageBreakPosition → Except String α) :
    α → List PageBreakPosition → Except String α
  | d, [] => .ok d
  | d, b :: rest =>
    match ins d b with
    | .ok d' => insertLoopUncaught ins d' rest
    | .error e => .error e

/-- A concrete fallible insertion for the error-handling analysis: inserting
at document position 5 fails with a stale-position error, any other insertion
prepends the marker to the document's marker list. -/
def insStale (d : List (Int × Int)) (b : PageBreakPosition) :
    Except String (List (Int × Int)) :=
  if b.insertPos = 5 then .error "stale position"
  else .ok ((b.insertPos, b.pageNumber) :: d)

/-- Every break pushed by the tall-node loop sits at a boundary the node's
bottom strictly exceeds. -/
theorem tallNodeLoopFuel_position_lt (pageHeight nodeBottom insertPosTall : Int)
    (index : Nat) :
    ∀ (fuel : Nat) (cpe pn : Int),
      ∀ b ∈ (tallNodeLoopFuel pageHeight nodeBottom insertPosTall index fuel cpe pn).1,
        b.position < nodeBottom := by
  intro fuel
  induction fuel with
  | zero => intro cpe pn b hb; simp [tallNodeLoopFuel] at hb
  | succ fuel ih =>
    intro cpe pn b hb
    by_cases h : nodeBottom > cpe
    · simp only [tallNodeLoopFuel, if_pos h, List.mem_cons] at hb
      rcases hb with rfl | hb
      · exact h
      · exact ih _ _ b hb
    · simp [tallNodeLoopFuel, if_neg h] at hb

/-- Every break emitted for a node sits at a boundary the node's bottom
strictly exceeds. -/
theorem processNode_position_lt (pageHeight : Int) (node : NodeHeight) (index : Nat)
    (cpe pn : Int) :
    ∀ b ∈ (processNode pageHeight node index cpe pn).1,
      b.position < node.top + node.height := by
  intro b hb
  by_cases h : node.top + node.height > cpe
  · simp only [processNode, if_pos h, List.mem_cons] at hb
    rcases hb with rfl | hb
    · exact h
    · exact tallNodeLoopFuel_position_lt _ _ _ _ _ _ _ b hb
  · simp [processNode, if_neg h] at hb

/-- Every break emitted by the planner loop is justified by some node in the
remaining list whose bottom strictly exceeds the break's boundary pixel. -/
theorem calcLoop_position_lt (pageHeight : Int) :
    ∀ (l : List NodeHeight) (index : Nat) (cpe pn : Int),
      ∀ b ∈ calcLoop pageHeight l index cpe pn,
        ∃ n ∈ l, b.position < n.top + n.height := by
  intro l
  induction l with
  | nil => intro index cpe pn b hb; simp [calcLoop] at hb
  | cons node rest ih =>
    intro index cpe pn b hb
    simp only [calcLoop, List.mem_append] at hb
    rcases hb with hb | hb
    · exact ⟨node, List.mem_cons_self _ _, processNode_position_lt _ _ _ _ _ b hb⟩
    · obtain ⟨n, hn, hlt⟩ := ih _ _ _ b hb
      exact ⟨n, List.mem_cons_of_mem _ hn, hlt⟩

/-- Heights chained from any offset are nonnegative, so their sum is too. -/
theorem chain_totalHeight_nonneg : ∀ (t : Int) (l : List NodeHeight),
    Chain t l → 0 ≤ totalHeight l := by
  intro t l
  induction l generalizing t with
  | nil => intro _; simp [totalHeight]
  | cons n rest ih =>
    intro hc
    obtain ⟨-, hh, hrest⟩ := hc
    have := ih _ hrest
    simp only [totalHeight, List.map_cons, List.sum_cons] at *
    linarith

/-- Invariant of the tall-node loop: given positive `pageHeight` and enough
fuel, the loop stops with `currentPageEnd` at the first boundary at or past
`nodeBottom`, having advanced by exactly `pageHeight` per emitted break, and
`pageNumber` advanced by one per emitted break. -/
theorem tallNodeLoopFuel_spec (pageHeight nodeBottom insertPosTall : Int)
    (index : Nat) (hph : 0 < pageHeight) :
    ∀ (fuel : Nat) (cpe pn : Int), nodeBottom ≤ cpe + fuel →
      nodeBottom ≤ (tallNodeLoopFuel pageHeight nodeBottom insertPosTall index fuel cpe pn).2.1 ∧
      cpe ≤ (tallNodeLoopFuel pageHeight nodeBottom insertPosTall index fuel cpe pn).2.1 ∧
      (tallNodeLoopFuel pageHeight nodeBottom insertPosTall index fuel cpe pn).2.1 =
        cpe + pageHeight *
          ((tallNodeLoopFuel pageHeight nodeBottom insertPosTall index fuel cpe pn).1.length : Int) ∧
      ((tallNodeLoopFuel pageHeight nodeBottom insertPosTall index fuel cpe pn).1.length = 0 ∨
        (tallNodeLoopFuel pageHeight nodeBottom insertPosTall index fuel cpe pn).2.1 - pageHeight
          < nodeBottom) ∧
      (tallNodeLoopFuel pageHeight nodeBottom insertPosTall index fuel cpe pn).2.2 =
        pn + ((tallNodeLoopFuel pageHeight nodeBottom insertPosTall index fuel cpe pn).1.length : Int) := by
  intro fuel
  induction fuel with
  | zero =>
    intro cpe pn hfuel
    simp only [tallNodeLoopFuel, List.length_nil]
    push_cast at hfuel
    exact ⟨by linarith, le_refl _, by ring, by left; trivial, by ring⟩
  | succ fuel ih =>
    intro cpe pn hfuel
    by_cases h : nodeBottom > cpe
    · have hfuel' : nodeBottom ≤ (cpe + pageHeight) + fuel := by
        have : (1 : Int) ≤ pageHeight := hph
        push_cast at hfuel ⊢
        linarith
      obtain ⟨h1, h2, h3, h4, h5⟩ := ih (cpe + pageHeight) (pn + 1) hfuel'
      simp only [tallNodeLoopFuel, if_pos h, List.length_cons]
      refine ⟨h1, by linarith, ?_, ?_, ?_⟩
      · push_cast
        linarith [h3]
      · right
        rcases h4 with h4 | h4
        · rw [h4] at h3
          push_cast at h3
          linarith
        · linarith
      · push_cast
        linarith
    · simp only [tallNodeLoopFuel, if_neg h, List.length_nil]
      refine ⟨by linarith [not_lt.mp h], le_refl _, by ring, by left; trivial, by ring⟩

/-- Invariant of one `forEach` step: `currentPageEnd` ends at or past the
node's bottom, advanced by `pageHeight` per emitted break, and when breaks
were emitted the previous boundary was still short of the bottom. -/
theorem processNode_spec (pageHeight : Int) (node : NodeHeight) (index : Nat)
    (cpe pn : Int) (hph : 0 < pageHeight) :
    node.top + node.height ≤ (processNode pageHeight node index cpe pn).2.1 ∧
      cpe ≤ (processNode pageHeight node index cpe pn).2.1 ∧
      (processNode pageHeight node index cpe pn).2.1 =
        cpe + pageHeight * ((processNode pageHeight node index cpe pn).1.length : Int) ∧
      ((processNode pageHeight node index cpe pn).1.length = 0 ∨
        (processNode pageHeight node index cpe pn).2.1 - pageHeight
          < node.top + node.height) ∧
      (processNode pageHeight node index cpe pn).2.2 =
        pn + ((processNode pageHeight node index cpe pn).1.length : Int) := by
  by_cases h : node.top + node.height > cpe
  · have hfuel : node.top + node.height ≤
        (cpe + pageHeight) +
          ((node.top + node.height - (cpe + pageHeight)).toNat : Int) := by
      omega
    obtain ⟨h1, h2, h3, h4, h5⟩ :=
      tallNodeLoopFuel_spec pageHeight (node.top + node.height)
        (node.pos + node.height) index hph
        (node.top + node.height - (cpe + pageHeight)).toNat
        (cpe + pageHeight) (pn + 1) hfuel
    simp only [processNode, if_pos h, List.length_cons]
    refine ⟨h1, by linarith, ?_, ?_, ?_⟩
    · push_cast
      linear_combination h3
    · right
      rcases h4 with h4 | h4
      · rw [h4] at h3
        push_cast at h3
        linarith
      · linarith
    · push_cast
      linarith
  · simp only [processNode, if_neg h, List.length_nil]
    refine ⟨by linarith [not_lt.mp h], le_refl _, by ring, by left; trivial, by ring⟩

/-- Invariant of the whole planner loop on a contiguous node list: the final
page boundary `cpe + pageHeight * numberOfBreaks` lies at or past the content
bottom `t + totalHeight l`, and unless no break was emitted the previous
boundary lies strictly before it. -/
theorem calcLoop_length_spec (pageHeight : Int) (hph : 0 < pageHeight) :
    ∀ (l : List NodeHeight) (t cpe pn : Int) (index : Nat),
      Chain t l → t ≤ cpe →
      t + totalHeight l ≤
          cpe + pageHeight * ((calcLoop pageHeight l index cpe pn).length : Int) ∧
        ((calcLoop pageHeight l index cpe pn).length = 0 ∨
          cpe + pageHeight * ((calcLoop pageHeight l index cpe pn).length : Int)
              - pageHeight < t + totalHeight l) := by
  intro l
  induction l with
  | nil =>
    intro t cpe pn index _ ht
    simp only [calcLoop, List.length_nil, totalHeight, List.map_nil, List.sum_nil]
    refine ⟨?_, by left; trivial⟩
    push_cast
    linarith
  | cons node rest ih =>
    intro t cpe pn index hc ht
    obtain ⟨htop, hh, hrest⟩ := hc
    obtain ⟨p1, p2, p3, p4, p5⟩ := processNode_spec pageHeight node index cpe pn hph
    have hb : node.top + node.height = t + node.height := by rw [htop]
    have ht' : t + node.height ≤ (processNode pageHeight node index cpe pn).2.1 := by
      rw [← hb]; exact p1
    obtain ⟨q1, q2⟩ := ih (t + node.height)
      (processNode pageHeight node index cpe pn).2.1
      (processNode pageHeight node index cpe pn).2.2 (index + 1) hrest ht'
    have hS : 0 ≤ totalHeight rest := chain_totalHeight_nonneg _ _ hrest
    have htot : totalHeight (node :: rest) = node.height + totalHeight rest := by
      simp [totalHeight]
    have hlen : ((calcLoop pageHeight (node :: rest) index cpe pn).length : Int) =
        ((processNode pageHeight node index cpe pn).1.length : Int) +
          ((calcLoop pageHeight rest (index + 1)
              (processNode pageHeight node index cpe pn).2.1
              (processNode pageHeight node index cpe pn).2.2).length : Int) := by
      simp [calcLoop]
    constructor
    · rw [htot, hlen]
      have expand : cpe + pageHeight *
          (((processNode pageHeight node index cpe pn).1.length : Int) +
            ((calcLoop pageHeight rest (index + 1)
                (processNode pageHeight node index cpe pn).2.1
                (processNode pageHeight node index cpe pn).2.2).length : Int)) =
          (cpe + pageHeight *
            ((processNode pageHeight node index cpe pn).1.length : Int)) +
          pageHeight * ((calcLoop pageHeight rest (index + 1)
              (processNode pageHeight node index cpe pn).2.1
              (processNode pageHeight node index cpe pn).2.2).length : Int) := by
        ring
      rw [expand, ← p3]
      linarith
    · rcases q2 with q2 | q2
      · rcases p4 with p4 | p4
        · left
          simp [calcLoop, p4, q2]
        · right
          rw [htot, hlen, q2]
          have : cpe + pageHeight *
              (((processNode pageHeight node index cpe pn).1.length : Int) + (0 : Int))
              = cpe + pageHeight *
                ((processNode pageHeight node index cpe pn).1.length : Int) := by ring
          push_cast
          rw [hb] at p4
          rw [p3] at p4
          linarith
      · right
        rw [htot, hlen]
        have expand : cpe + pageHeight *
            (((processNode pageHeight node index cpe pn).1.length : Int) +
              ((calcLoop pageHeight rest (index + 1)
                  (processNode pageHeight node index cpe pn).2.1
                  (processNode pageHeight node index cpe pn).2.2).length : Int)) =
            (cpe + pageHeight *
              ((processNode pageHeight node index cpe pn).1.length : Int)) +
            pageHeight * ((calcLoop pageHeight rest (index + 1)
                (processNode pageHeight node index cpe pn).2.1
                (processNode pageHeight node index cpe pn).2.2).length : Int) := by
          ring
        rw [expand, ← p3]
        linarith

/-- C2: the single oversized node `{top: 0, height: 3000, pos: p}` with
`pageHeight = 1123` yields exactly two breaks: page 1 at boundary 1123 with
insert position `p`, and page 2 at boundary 2246 with insert position
`p + 3000`. -/
theorem calculatePageBreaks_oversized_node (ty : String) (p : Int) :
    calculatePageBreaks [⟨ty, 3000, 0, p⟩] 1123 =
      [⟨1, 1123, p, -1⟩, ⟨2, 2246, p + 3000, 0⟩] := by
  rfl

/-- The tall-node loop does not run when the node's bottom is already within
the current page. -/
theorem tallNodeLoopFuel_of_le (pageHeight nodeBottom insertPosTall : Int)
    (index : Nat) (fuel : Nat) (cpe pn : Int) (h : nodeBottom ≤ cpe) :
    tallNodeLoopFuel pageHeight nodeBottom insertPosTall index fuel cpe pn =
      ([], cpe, pn) := by
  cases fuel with
  | zero => rfl
  | succ fuel => simp [tallNodeLoopFuel, not_lt.mpr h]

/-- The tall-node loop emits consecutive page numbers starting at its incoming
`pageNumber`. -/
theorem tallNodeLoopFuel_pageNumber_map (pageHeight nodeBottom insertPosTall : Int)
    (index : Nat) :
    ∀ (fuel : Nat) (cpe pn : Int),
      (tallNodeLoopFuel pageHeight nodeBottom insertPosTall index fuel cpe pn).1.map
          PageBreakPosition.pageNumber =
        (List.range
            (tallNodeLoopFuel pageHeight nodeBottom insertPosTall
              index fuel cpe pn).1.length).map
          (fun j : Nat => pn + (j : Int)) := by
  intro fuel
  induction fuel with
  | zero => intro cpe pn; simp [tallNodeLoopFuel]
  | succ fuel ih =>
    intro cpe pn
    by_cases h : nodeBottom > cpe
    · simp only [tallNodeLoopFuel, if_pos h, List.map_cons, List.length_cons]
      rw [ih, List.range_succ_eq_map, List.map_cons, List.map_map]
      congr 1
      · norm_num
      · apply List.map_congr_left
        intro j hj
        simp only [Function.comp_apply]
        push_cast
        ring
    · simp [tallNodeLoopFuel, if_neg h]

/-- One `forEach` step emits consecutive page numbers starting at its incoming
`pageNumber`. -/
theorem processNode_pageNumber_map (pageHeight : Int) (node : NodeHeight)
    (index : Nat) (cpe pn : Int) :
    (processNode pageHeight node index cpe pn).1.map PageBreakPosition.pageNumber =
      (List.range (processNode pageHeight node index cpe pn).1.length).map
        (fun j : Nat => pn + (j : Int)) := by
  by_cases h : node.top + node.height > cpe
  · simp only [processNode, if_pos h, List.map_cons, List.length_cons]
    rw [tallNodeLoopFuel_pageNumber_map, List.range_succ_eq_map, List.map_cons,
      List.map_map]
    congr 1
    · norm_num
    · apply List.map_congr_left
      intro j hj
      simp only [Function.comp_apply]
      push_cast
      ring
  · simp [processNode, if_neg h]

/-- The planner loop emits consecutive page numbers starting at its incoming
`pageNumber`. -/
theorem calcLoop_pageNumber_map (pageHeight : Int) (hph : 0 < pageHeight) :
    ∀ (l : List NodeHeight) (index : Nat) (cpe pn : Int),
      (calcLoop pageHeight l index cpe pn).map PageBreakPosition.pageNumber =
        (List.range (calcLoop pageHeight l index cpe pn).length).map
          (fun j : Nat => pn + (j : Int)) := by
  intro l
  induction l with
  | nil => intro index cpe pn; simp [calcLoop]
  | cons node rest ih =>
    intro index cpe pn
    obtain ⟨-, -, -, -, p5⟩ := processNode_spec pageHeight node index cpe pn hph
    simp only [calcLoop, List.map_append, List.length_append]
    rw [processNode_pageNumber_map, ih, List.range_add, List.map_append,
      List.map_map]
    congr 1
    apply List.map_congr_left
    intro j hj
    simp only [Function.comp_apply]
    rw [p5]
    push_cast
    ring

/-- Under the contiguity invariant, with every node at most one page tall, the
planner loop only ever emits first-crossing breaks, whose insert positions are
the document positions of a subsequence of the nodes. -/
theorem calcLoop_insertPos_sublist (pageHeight : Int) :
    ∀ (l : List NodeHeight) (t cpe pn : Int) (index : Nat),
      Chain t l → (∀ n ∈ l, n.height ≤ pageHeight) → t ≤ cpe →
      ∃ l' : List NodeHeight, List.Sublist l' l ∧
        (calcLoop pageHeight l index cpe pn).map PageBreakPosition.insertPos =
          l'.map NodeHeight.pos := by
  intro l
  induction l with
  | nil =>
    intro t cpe pn index _ _ _
    exact ⟨[], List.Sublist.refl _, by simp [calcLoop]⟩
  | cons node rest ih =>
    intro t cpe pn index hc hle ht
    obtain ⟨htop, hh, hrest⟩ := hc
    have hnode : node.height ≤ pageHeight := hle node (List.mem_cons_self _ _)
    have hle' : ∀ n ∈ rest, n.height ≤ pageHeight := fun n hn =>
      hle n (List.mem_cons_of_mem _ hn)
    by_cases h : node.top + node.height > cpe
    · have hbot : node.top + node.height ≤ cpe + pageHeight := by
        rw [htop]; linarith
      obtain ⟨l', hsub, hmap⟩ := ih (t + node.height) (cpe + pageHeight) (pn + 1)
        (index + 1) hrest hle' (by rw [← htop]; exact hbot)
      refine ⟨node :: l', List.Sublist.cons₂ _ hsub, ?_⟩
      simp only [calcLoop, processNode, if_pos h,
        tallNodeLoopFuel_of_le pageHeight (node.top + node.height)
          (node.pos + node.height) index _ (cpe + pageHeight) (pn + 1) hbot]
      simpa using hmap
    · have hcpe : node.top + node.height ≤ cpe := not_lt.mp h
      obtain ⟨l', hsub, hmap⟩ := ih (t + node.height) cpe pn (index + 1) hrest hle'
        (by rw [← htop]; exact hcpe)
      refine ⟨l', List.Sublist.cons _ hsub, ?_⟩
      simp only [calcLoop, processNode, if_neg h]
      simpa using hmap

/-- C3: on a node list satisfying the contiguity invariant (`top[0] = 0`,
`top[i] = top[i-1] + height[i-1]`, heights nonnegative) and for positive
`pageHeight`, the number of breaks is the number of strict crossings of
page-height multiples, i.e. `floor(contentHeight / pageHeight)` adjusted so
that a content height landing exactly on a multiple does not count that
multiple (equivalently, `(contentHeight - 1) / pageHeight` in natural-number
arithmetic). -/
theorem calculatePageBreaks_length_eq (nodeHeights : List NodeHeight)
    (pageHeight : Int) (hph : 0 < pageHeight) (hc : Chain 0 nodeHeights) :
    (calculatePageBreaks nodeHeights pageHeight).length =
      ((totalHeight nodeHeights).toNat - 1) / pageHeight.toNat := by
  obtain ⟨h1, h2⟩ :=
    calcLoop_length_spec pageHeight hph nodeHeights 0 pageHeight 1 0 hc hph.le
  rw [zero_add] at h1 h2
  have hH0 : 0 ≤ totalHeight nodeHeights := chain_totalHeight_nonneg _ _ hc
  have hHcast : totalHeight nodeHeights = ((totalHeight nodeHeights).toNat : Int) :=
    (Int.toNat_of_nonneg hH0).symm
  have hPcast : pageHeight = (pageHeight.toNat : Int) :=
    (Int.toNat_of_nonneg hph.le).symm
  have hP1 : 1 ≤ pageHeight.toNat := by omega
  simp only [calculatePageBreaks] at *
  set K := (calcLoop pageHeight nodeHeights 0 pageHeight 1).length with hK
  set Hn := (totalHeight nodeHeights).toNat with hHn
  set Pn := pageHeight.toNat with hPn
  have hA : Hn ≤ Pn * (K + 1) := by
    have : ((Hn : Int)) ≤ (Pn : Int) * ((K : Int) + 1) := by
      rw [← hHcast, ← hPcast]
      linear_combination h1
    exact_mod_cast this
  rcases h2 with h2 | h2
  · rw [h2]
    rw [h2] at hA
    have hlt : Hn - 1 < Pn := by omega
    exact (Nat.div_eq_of_lt hlt).symm
  · have hB : Pn * K < Hn := by
      have : (Pn : Int) * (K : Int) < (Hn : Int) := by
        rw [← hHcast, ← hPcast]
        linarith
      exact_mod_cast this
    have hH1 : 0 < Hn := Nat.lt_of_le_of_lt (Nat.zero_le _) hB
    refine (Nat.div_eq_of_lt_le ?_ ?_).symm
    · rw [Nat.mul_comm]
      omega
    · have : Hn - 1 < Hn := by omega
      calc Hn - 1 < Hn := this
        _ ≤ Pn * (K + 1) := hA
        _ = (K + 1) * Pn := by rw [Nat.mul_comm]

/-- Witness for C3: the spec's single-overflow example, two stacked nodes of
height 600 with `pageHeight = 1123`: content height 1200 gives
`(1200 - 1) / 1123 = 1` break. -/
theorem calculatePageBreaks_length_eq_witness :
    (calculatePageBreaks [⟨"paragraph", 600, 0, 1⟩, ⟨"paragraph", 600, 600, 9⟩]
        1123).length =
      ((totalHeight [⟨"paragraph", 600, 0, 1⟩, ⟨"paragraph", 600, 600, 9⟩]).toNat
          - 1) / (1123 : Int).toNat :=
  calculatePageBreaks_length_eq
    [⟨"paragraph", 600, 0, 1⟩, ⟨"paragraph", 600, 600, 9⟩] 1123
    (by norm_num) (by decide)

/-- C4 counterexample: with strictly increasing document positions and
nonnegative heights (the claim's hypotheses), an oversized first node makes
the synthetic mid-node break's `insertPos` (document position plus pixel
height) exceed the following node's `pos`, so the plan's insert positions are
not increasing: here they run 0, 100, 10. -/
theorem calculatePageBreaks_insertPos_not_mono_cex :
    (([(⟨"paragraph", 100, 0, 0⟩ : NodeHeight), ⟨"paragraph", 50, 100, 10⟩].map
          NodeHeight.pos).Pairwise (· < ·)) ∧
      (∀ n ∈ [(⟨"paragraph", 100, 0, 0⟩ : NodeHeight), ⟨"paragraph", 50, 100, 10⟩],
        0 ≤ n.height) ∧
      calculatePageBreaks [⟨"paragraph", 100, 0, 0⟩, ⟨"paragraph", 50, 100, 10⟩] 40 =
        [⟨1, 40, 0, -1⟩, ⟨2, 80, 100, 0⟩, ⟨3, 120, 10, 0⟩] ∧
      ¬ ((calculatePageBreaks [⟨"paragraph", 100, 0, 0⟩,
            ⟨"paragraph", 50, 100, 10⟩] 40).Pairwise
          (fun a b => a.insertPos < b.insertPos)) :=
  ⟨by decide, by decide, by decide, by decide⟩

/-- C4 (amended): under the claim's hypotheses (strictly increasing document
positions, nonnegative heights) together with positive `pageHeight`, the
plan's `pageNumber`s are strictly increasing.  The claimed monotonicity of
`insertPos` fails in general once an oversized node spans several pages
(see the counterexample); it does hold additionally when the node list
satisfies the contiguity invariant and no node is taller than one page, so
that every break is a first-crossing break inserted before a distinct node. -/
theorem calculatePageBreaks_mono_amended (nodeHeights : List NodeHeight)
    (pageHeight : Int) (hph : 0 < pageHeight)
    (hpos : (nodeHeights.map NodeHeight.pos).Pairwise (· < ·))
    (_hh : ∀ n ∈ nodeHeights, 0 ≤ n.height) :
    ((calculatePageBreaks nodeHeights pageHeight).Pairwise
        (fun a b => a.pageNumber < b.pageNumber)) ∧
      (Chain 0 nodeHeights → (∀ n ∈ nodeHeights, n.height ≤ pageHeight) →
        (calculatePageBreaks nodeHeights pageHeight).Pairwise
          (fun a b => a.insertPos < b.insertPos)) := by
  constructor
  · have hmap := calcLoop_pageNumber_map pageHeight hph nodeHeights 0 pageHeight 1
    have hpair : ((calculatePageBreaks nodeHeights pageHeight).map
        PageBreakPosition.pageNumber).Pairwise (· < ·) := by
      simp only [calculatePageBreaks]
      rw [hmap]
      refine List.Pairwise.map _ ?_ (List.pairwise_lt_range _)
      intro a b hab
      omega
    exact List.pairwise_map.mp hpair
  · intro hchain hle
    obtain ⟨l', hsub, hmapeq⟩ := calcLoop_insertPos_sublist pageHeight nodeHeights
      0 pageHeight 1 0 hchain hle hph.le
    have hpair : ((calculatePageBreaks nodeHeights pageHeight).map
        PageBreakPosition.insertPos).Pairwise (· < ·) := by
      simp only [calculatePageBreaks]
      rw [hmapeq]
      exact hpos.sublist (hsub.map NodeHeight.pos)
    exact List.pairwise_map.mp hpair

/-- Witness for C4's amended statement: the two stacked 600-pixel nodes with
positions 1 and 9 and `pageHeight = 1123` satisfy every hypothesis, and the
resulting plan has strictly increasing insert positions. -/
theorem calculatePageBreaks_mono_amended_witness :
    (calculatePageBreaks [⟨"paragraph", 600, 0, 1⟩, ⟨"paragraph", 600, 600, 9⟩]
        1123).Pairwise (fun a b => a.insertPos < b.insertPos) :=
  (calculatePageBreaks_mono_amended
      [⟨"paragraph", 600, 0, 1⟩, ⟨"paragraph", 600, 600, 9⟩] 1123
      (by norm_num) (by decide) (by decide)).2 (by decide) (by decide)

/-- C1: `calculatePageBreaks` emits a break at a page boundary only when some
node's bottom edge (`top + height`) strictly exceeds that boundary pixel, and
in particular the single node `{top: 0, height: 1123}` with
`pageHeight = 1123` (bottom exactly on the boundary) produces no break. -/
theorem calculatePageBreaks_strict_boundary :
    (∀ (nodeHeights : List NodeHeight) (pageHeight : Int),
        ∀ b ∈ calculatePageBreaks nodeHeights pageHeight,
          ∃ n ∈ nodeHeights, b.position < n.top + n.height) ∧
      calculatePageBreaks [⟨"paragraph", 1123, 0, 0⟩] 1123 = [] := by
  constructor
  · intro nodeHeights pageHeight b hb
    exact calcLoop_position_lt pageHeight nodeHeights 0 pageHeight 1 b hb
  · rfl

/-- Witness for C1 at a concrete input: the node `{top: 0, height: 1200,
pos: 7}` with `pageHeight = 1123` produces the break `⟨1, 1123, 7, -1⟩`, whose
boundary pixel 1123 is strictly exceeded by the node's bottom 1200. -/
theorem calculatePageBreaks_strict_boundary_witness :
    ∃ n ∈ [(⟨"paragraph", 1200, 0, 7⟩ : NodeHeight)],
      (⟨1, 1123, 7, -1⟩ : PageBreakPosition).position < n.top + n.height :=
  calculatePageBreaks_strict_boundary.1 [⟨"paragraph", 1200, 0, 7⟩] 1123
    ⟨1, 1123, 7, -1⟩ (by decide)

/-- C10: whenever the first node's bottom strictly exceeds `pageHeight`, the
plan starts with a break whose `afterNodeIndex` is `-1` (computed as
`index - 1` at index 0), a value that is not a valid index into
`nodeHeights`. -/
theorem calculatePageBreaks_first_break_afterNodeIndex (n : NodeHeight)
    (rest : List NodeHeight) (pageHeight : Int)
    (h : pageHeight < n.top + n.height) :
    (calculatePageBreaks (n :: rest) pageHeight).head? =
      some ⟨1, pageHeight, n.pos, -1⟩ := by
  simp only [calculatePageBreaks, calcLoop, processNode]
  rw [if_pos (show n.top + n.height > pageHeight from h)]
  simp

/-- Witness for C10: the node `{top: 0, height: 1500, pos: 3}` with
`pageHeight = 1123` has its bottom past the first boundary, so the plan's
first break carries `afterNodeIndex = -1`. -/
theorem calculatePageBreaks_first_break_afterNodeIndex_witness :
    (calculatePageBreaks [⟨"paragraph", 1500, 0, 3⟩] 1123).head? =
      some ⟨1, 1123, 3, -1⟩ :=
  calculatePageBreaks_first_break_afterNodeIndex ⟨"paragraph", 1500, 0, 3⟩ [] 1123
    (by norm_num)

/-- C5: a debounced reconciliation pass whose plan has the previously applied
length performs no removals and no insertions and leaves the state (markers
and count) unchanged; and applying the same plan twice in a row leaves
exactly the same markers — the second pass is always a no-op. -/
theorem reconcileStep_idempotent (plan : List PageBreakPosition)
    (st : ManagerState) :
    (plan.length = st.lastApplied → reconcileStep plan st = (st, [])) ∧
      reconcileStep plan (reconcileStep plan st).1 =
        ((reconcileStep plan st).1, []) := by
  constructor
  · intro h
    simp [reconcileStep, h]
  · by_cases hc : plan.length = st.lastApplied
    · simp [reconcileStep, hc]
    · simp [reconcileStep, hc]

/-- Witness for C5 at a concrete input: an empty plan against a state that
already recorded count 0 is skipped outright, leaving even a (stale) marker
list untouched. -/
theorem reconcileStep_idempotent_witness :
    reconcileStep [] ⟨[(3, 1)], 0⟩ = (⟨[(3, 1)], 0⟩, []) :=
  (reconcileStep_idempotent [] ⟨[(3, 1)], 0⟩).1 rfl

/-- C9: the manual recalculate rewrites the document's markers to the fresh
plan but leaves the stored last-applied count unchanged; consequently the
next debounced pass compares the plan's length against the stale
pre-recalculate count — it is skipped exactly when the plan's length equals
that old count, regardless of the markers the recalculate just wrote. -/
theorem recalcStep_preserves_lastApplied (plan : List PageBreakPosition)
    (st : ManagerState) :
    (recalcStep plan st).1.lastApplied = st.lastApplied ∧
      (recalcStep plan st).1.markers = markersOfPlan plan ∧
      (reconcileStep plan (recalcStep plan st).1 = ((recalcStep plan st).1, []) ↔
        plan.length = st.lastApplied) := by
  refine ⟨rfl, rfl, ?_⟩
  by_cases hc : plan.length = st.lastApplied
  · simp [reconcileStep, recalcStep, hc]
  · constructor
    · intro hskip
      have hla : (reconcileStep plan (recalcStep plan st).1).1.lastApplied =
          plan.length := by
        simp [reconcileStep, recalcStep, hc]
      rw [hskip] at hla
      simp [recalcStep] at hla
      exact absurd hla.symm hc
    · intro h
      exact absurd h hc

/-- C7 counterexample: the manual recalculate path's insertion loop has no
`try`/`catch`, so on a plan of two breaks whose first insertion fails (a
stale position) and whose second would succeed, the modelled manual loop
aborts with the error and never performs the second insertion — whereas the
debounced (caught) loop logs the failure and still applies the second
insertion. -/
theorem recalculate_insert_abort_cex :
    insertLoopUncaught insStale ([] : List (Int × Int))
        [⟨1, 1123, 5, -1⟩, ⟨2, 2246, 9, 0⟩] = .error "stale position" ∧
      insertLoopCaught insStale ([] : List (Int × Int))
        [⟨1, 1123, 5, -1⟩, ⟨2, 2246, 9, 0⟩] = ([(9, 2)], ["stale position"]) :=
  ⟨rfl, rfl⟩

/-- C7 (amended): in the debounced pass every individual insertion failure is
caught, logged and skipped — the document is left as it was before the
failing call and the remaining insertions still run; in particular when every
insertion fails the loop still attempts all of them, logging one error per
break and leaving the document unchanged, and never propagates an exception.
The manual recalculate loop has no per-insertion catch, so its first failure
aborts the remaining insertions (see the counterexample). -/
theorem insertLoopCaught_skips {α : Type}
    (ins : α → PageBreakPosition → Except String α) (d : α)
    (b : PageBreakPosition) (rest : List PageBreakPosition) (e : String)
    (hfail : ins d b = .error e) :
    insertLoopCaught ins d (b :: rest) =
        ((insertLoopCaught ins d rest).1, e :: (insertLoopCaught ins d rest).2) ∧
      ∀ (errOf : PageBreakPosition → String) (d₀ : α)
        (brks : List PageBreakPosition),
        (∀ (x : α) (b' : PageBreakPosition), ins x b' = .error (errOf b')) →
        insertLoopCaught ins d₀ brks = (d₀, brks.map errOf) := by
  constructor
  · simp [insertLoopCaught, hfail]
  · intro errOf d₀ brks hall
    induction brks generalizing d₀ with
    | nil => rfl
    | cons b' brks ih =>
      simp [insertLoopCaught, hall d₀ b', ih]

/-- Witness for C7's amended statement: with the concrete stale-position
insertion, the failing first break of a two-break plan is logged and skipped
while the rest of the plan is still processed. -/
theorem insertLoopCaught_skips_witness :
    insertLoopCaught insStale ([] : List (Int × Int))
        [⟨1, 1123, 5, -1⟩, ⟨2, 2246, 9, 0⟩] =
      ((insertLoopCaught insStale ([] : List (Int × Int)) [⟨2, 2246, 9, 0⟩]).1,
        "stale position" ::
          (insertLoopCaught insStale ([] : List (Int × Int))
              [⟨2, 2246, 9, 0⟩]).2) :=
  (insertLoopCaught_skips insStale [] ⟨1, 1123, 5, -1⟩ [⟨2, 2246, 9, 0⟩]
      "stale position" rfl).1

/-- C8 counterexample: a block paragraph node whose rendered element is
unavailable is dropped from the metrics pass — it contributes no record at
all, not a record with height 0 as the claim states. -/
theorem collectNodeHeights_unrendered_dropped_cex :
    collectNodeHeights [⟨"paragraph", true, 1, none⟩] 0 = [] ∧
      collectNodeHeights [⟨"paragraph", true, 1, none⟩] 0 ≠
        [⟨"paragraph", 0, 0, 1⟩] :=
  ⟨rfl, by decide⟩

/-- C8 (amended): when a node's rendered element is unavailable the metrics
pass completes without failing, but the node is skipped rather than recorded
with height 0: the collected records are exactly those of the document with
that node removed, so the following nodes' `top` offsets are as if the
missing height were 0. -/
theorem collectNodeHeights_skips_unrendered (pre post : List MeasuredNode)
    (m : MeasuredNode) (hm : m.rendered = none) :
    ∀ c : Int, collectNodeHeights (pre ++ m :: post) c =
      collectNodeHeights (pre ++ post) c := by
  induction pre with
  | nil =>
    intro c
    simp only [List.nil_append]
    by_cases hb : m.isBlock && m.typeName != "pageBreak"
    · simp [collectNodeHeights, hb, hm]
    · simp [collectNodeHeights, hb]
  | cons p pre ih =>
    intro c
    by_cases hb : p.isBlock && p.typeName != "pageBreak"
    · cases hp : p.rendered with
      | some h => simp [collectNodeHeights, hb, hp, ih]
      | none => simp [collectNodeHeights, hb, hp, ih]
    · simp [collectNodeHeights, hb, ih]

/-- Every page break collected from a document whose first node sits at
`base` lies at or past `base`. -/
theorem collectPageBreaks_le :
    ∀ (doc : List DocNode) (base : Nat), ∀ ps ∈ collectPageBreaks doc base,
      base ≤ ps.1 := by
  intro doc
  induction doc with
  | nil => intro base ps hps; simp [collectPageBreaks] at hps
  | cons n rest ih =>
    intro base ps hps
    by_cases hname : n.name = "pageBreak"
    · simp only [collectPageBreaks, if_pos hname, List.mem_cons] at hps
      rcases hps with rfl | hps
      · exact le_refl _
      · exact le_trans (Nat.le_add_right _ _) (ih _ ps hps)
    · simp only [collectPageBreaks, if_neg hname] at hps
      exact le_trans (Nat.le_add_right _ _) (ih _ ps hps)

/-- Deleting a range that starts past the head node leaves the head intact
and proceeds into the tail. -/
theorem deleteRange_cons_of_le (n : DocNode) (d : List DocNode)
    (base start stop : Nat) (hn : 1 ≤ n.size) (hstart : base + n.size ≤ start) :
    deleteRange (n :: d) base start stop =
      n :: deleteRange d (base + n.size) start stop := by
  have : ¬ (start ≤ base ∧ base + n.size ≤ stop) := by omega
  simp [deleteRange, this]

/-- Deleting a range that ends at or before the document's first node is a
no-op (given real node sizes). -/
theorem deleteRange_of_stop_le :
    ∀ (d : List DocNode) (base start stop : Nat),
      (∀ x ∈ d, 1 ≤ x.size) → stop ≤ base → deleteRange d base start stop = d := by
  intro d
  induction d with
  | nil => intro base start stop _ _; rfl
  | cons n rest ih =>
    intro base start stop hsize hstop
    have hn : 1 ≤ n.size := hsize n (List.mem_cons_self _ _)
    have : ¬ (start ≤ base ∧ base + n.size ≤ stop) := by omega
    simp only [deleteRange, if_neg this]
    rw [ih (base + n.size) start stop
      (fun x hx => hsize x (List.mem_cons_of_mem _ hx)) (by omega)]

/-- A back-to-front sweep of deletions all starting past the head node leaves
the head intact and acts on the tail with the shifted base. -/
theorem foldr_deleteRange_cons (n : DocNode) (hn : 1 ≤ n.size) :
    ∀ (brks : List (Nat × Nat)) (d : List DocNode) (base : Nat),
      (∀ ps ∈ brks, base + n.size ≤ ps.1) →
      brks.foldr (fun ps acc => deleteRange acc base ps.1 (ps.1 + ps.2)) (n :: d) =
        n :: brks.foldr
          (fun ps acc => deleteRange acc (base + n.size) ps.1 (ps.1 + ps.2)) d := by
  intro brks
  induction brks with
  | nil => intro d base _; rfl
  | cons ps brks ih =>
    intro d base hge
    have hps : base + n.size ≤ ps.1 := hge ps (List.mem_cons_self _ _)
    simp only [List.foldr_cons]
    rw [ih d base (fun q hq => hge q (List.mem_cons_of_mem _ hq))]
    exact deleteRange_cons_of_le n _ base ps.1 (ps.1 + ps.2) hn hps

/-- The back-to-front removal sweep deletes exactly the `pageBreak` nodes:
deleting the collected page breaks of a document (whose first node sits at
`base`) from end to start yields the document with every `pageBreak` node
filtered out. -/
theorem foldr_deleteRange_collect :
    ∀ (doc : List DocNode) (base : Nat), (∀ x ∈ doc, 1 ≤ x.size) →
      (collectPageBreaks doc base).foldr
          (fun ps acc => deleteRange acc base ps.1 (ps.1 + ps.2)) doc =
        doc.filter (fun x => x.name != "pageBreak") := by
  intro doc
  induction doc with
  | nil => intro base _; rfl
  | cons n rest ih =>
    intro base hsize
    have hn : 1 ≤ n.size := hsize n (List.mem_cons_self _ _)
    have hrest : ∀ x ∈ rest, 1 ≤ x.size := fun x hx =>
      hsize x (List.mem_cons_of_mem _ hx)
    have hge : ∀ ps ∈ collectPageBreaks rest (base + n.size), base + n.size ≤ ps.1 :=
      collectPageBreaks_le rest (base + n.size)
    by_cases hname : n.name = "pageBreak"
    · simp only [collectPageBreaks, if_pos hname, List.foldr_cons]
      rw [foldr_deleteRange_cons n hn _ _ base hge, ih (base + n.size) hrest]
      have hcond : base ≤ base ∧ base + n.size ≤ base + n.size := ⟨le_refl _, le_refl _⟩
      simp only [deleteRange, if_pos hcond]
      rw [deleteRange_of_stop_le _ (base + n.size) base (base + n.size)
        (fun x hx => hrest x (List.mem_of_mem_filter hx)) (le_refl _)]
      simp [List.filter_cons, hname]
    · simp only [collectPageBreaks, if_neg hname]
      rw [foldr_deleteRange_cons n hn _ _ base hge, ih (base + n.size) hrest]
      have : (n.name != "pageBreak") = true := by
        simp [hname]
      simp [List.filter_cons, this]

/-- C6: `removeAllPageBreaks` collects every `pageBreak` node with its
position and size and deletes them back to front, so that earlier removals do
not invalidate later removal positions: the result is exactly the document
with every `pageBreak` node removed.  Hence zero markers remain afterwards
for any initial marker count, and the pass is a safe no-op when none exist. -/
theorem removeAllPageBreaks_removes_all (doc : List DocNode)
    (hsize : ∀ x ∈ doc, 1 ≤ x.size) :
    removeAllPageBreaks doc = doc.filter (fun x => x.name != "pageBreak") ∧
      (removeAllPageBreaks doc).countP (fun x => x.name == "pageBreak") = 0 ∧
      ((∀ x ∈ doc, x.name ≠ "pageBreak") → removeAllPageBreaks doc = doc) := by
  have hmain : removeAllPageBreaks doc =
      doc.filter (fun x => x.name != "pageBreak") := by
    rw [removeAllPageBreaks, List.foldl_reverse]
    exact foldr_deleteRange_collect doc 0 hsize
  refine ⟨hmain, ?_, ?_⟩
  · rw [hmain, List.countP_eq_zero]
    intro a ha
    have := List.of_mem_filter ha
    simpa using this
  · intro hnone
    rw [hmain, List.filter_eq_self]
    intro a ha
    simpa using hnone a ha

/-- Witness for C6: a document with two markers interleaved with paragraphs
loses exactly the markers. -/
theorem removeAllPageBreaks_removes_all_witness :
    removeAllPageBreaks [⟨"paragraph", 3⟩, ⟨"pageBreak", 1⟩, ⟨"paragraph", 2⟩,
        ⟨"pageBreak", 1⟩] =
      ([⟨"paragraph", 3⟩, ⟨"pageBreak", 1⟩, ⟨"paragraph", 2⟩,
          ⟨"pageBreak", 1⟩] : List DocNode).filter
        (fun x => x.name != "pageBreak") :=
  (removeAllPageBreaks_removes_all
    [⟨"paragraph", 3⟩, ⟨"pageBreak", 1⟩, ⟨"paragraph", 2⟩, ⟨"pageBreak", 1⟩]
    (by decide)).1

/-- Witness for C8's amended statement: a three-node document whose middle
node is unrendered measures exactly like the two-node document without it. -/
theorem collectNodeHeights_skips_unrendered_witness :
    collectNodeHeights [⟨"paragraph", true, 1, some 20⟩,
        ⟨"paragraph", true, 3, none⟩, ⟨"paragraph", true, 4, some 30⟩] 0 =
      collectNodeHeights [⟨"paragraph", true, 1, some 20⟩,
        ⟨"paragraph", true, 4, some 30⟩] 0 :=
  collectNodeHeights_skips_unrendered [⟨"paragraph", true, 1, some 20⟩]
    [⟨"paragraph", true, 4, some 30⟩] ⟨"paragraph", true, 3, none⟩ rfl 0

end Pagination
